import Mathlib

/-!
Verification of the cheaptest run-orchestration engine.

This file gives a shallow embedding of the core of the repository:
* the shard planner (`TestSharding.createShards` with its three strategies
  and `calculateBalanceScore`, from `src/sharding/test-sharding.ts`),
* the ECS run orchestrator (`ECSBackend.run`, `uploadShards`, `createTasks`,
  `waitForCompletion`, `aggregateResults`, from `src/cli/src/backends/ecs.ts`),
  modelled as a trace-producing state function over an abstract world of
  store/backend responses,
* the status reconciler merge (`gatherStatus` / `mapEcsStatus`, from
  `src/cli/src/commands/status.ts`),
and proves the spec's testable properties about those definitions.

Sizes and durations are modelled as `Nat` (the source uses nonnegative
JavaScript numbers; the spec's examples are integral milliseconds), and the
balance score as `ℚ`.
-/

namespace Cheaptest

/-- `TestFile` from `src/cli/src/types` (part_020 lines 307-314). -/
structure TestFile where
  path : String
  relativePath : String
  framework : String
  size : Nat
  estimatedDuration : Option Nat
  suite : Option String := none
deriving DecidableEq, Repr

/-- `TestShard` from `src/cli/src/types` (part_020 lines 364-369). -/
structure TestShard where
  id : Nat
  files : List TestFile
  estimatedDuration : Nat
  totalSize : Nat
deriving DecidableEq, Repr

/-- The three `shards[idx].files.push(file); ... += file.estimatedDuration || 0;
... += file.size` mutations shared by all strategies in
`roundRobinSharding`/`balancedSharding`/`durationBasedSharding`. -/
def pushFile (s : TestShard) (f : TestFile) : TestShard :=
  { s with
    files := s.files ++ [f]
    estimatedDuration := s.estimatedDuration + f.estimatedDuration.getD 0
    totalSize := s.totalSize + f.size }

/-- `Array.from({ length: shardCount }, (_, i) => ({ id: i, files: [],
estimatedDuration: 0, totalSize: 0 }))` -- the initial empty shard array. -/
def emptyShards (k : Nat) : List TestShard :=
  (List.range k).map (fun i => { id := i, files := [], estimatedDuration := 0, totalSize := 0 })

/-- In-place update of the array element at a given index, used to model the
source's mutation of one shard object inside the `shards` array. Out-of-range
indices leave the list unchanged (they never occur in the source's uses). -/
def modifyIdx {α : Type} (g : α → α) : Nat → List α → List α
  | _, [] => []
  | 0, a :: rest => g a :: rest
  | n + 1, a :: rest => a :: modifyIdx g n rest

/-- Loop of `roundRobinSharding`: `files.forEach((file, index) =>
shards[index % shardCount].push...)`, with `i` the running index. -/
def roundRobinGo (k : Nat) (shards : List TestShard) : Nat → List TestFile → List TestShard
  | _, [] => shards
  | i, f :: fs => roundRobinGo k (modifyIdx (fun s => pushFile s f) (i % k) shards) (i + 1) fs

/-- `TestSharding.roundRobinSharding` (part_017 lines 501-521). -/
def roundRobinSharding (files : List TestFile) (k : Nat) : List TestShard :=
  roundRobinGo k (emptyShards k) 0 files

/-- One step of a stable descending insertion sort: the new element is placed
before the first element with a strictly smaller key, hence after all
equal-key elements, matching the stability of `Array.prototype.sort` with
comparator `(a, b) => key(b) - key(a)`. -/
def insertDesc (key : TestFile → Nat) (x : TestFile) : List TestFile → List TestFile
  | [] => [x]
  | y :: ys => if key y < key x then x :: y :: ys else y :: insertDesc key x ys

/-- Stable sort by a numeric key, descending: models
`[...files].sort((a, b) => key(b) - key(a))`. -/
def sortByKeyDesc (key : TestFile → Nat) (files : List TestFile) : List TestFile :=
  files.foldl (fun acc x => insertDesc key x acc) []

/-- Minimum of `key` over a list of shards (value of the accumulator of
`shards.reduce((min, shard) => shard.key < min.key ? shard : min)`). -/
def minKey (key : TestShard → Nat) : List TestShard → Nat
  | [] => 0
  | [s] => key s
  | s :: t :: rest => min (key s) (minKey key (t :: rest))

/-- Index of the shard returned by
`shards.reduce((min, shard) => shard.key < min.key ? shard : min)`:
the accumulator is replaced only on strictly smaller key, so the reduce
returns the first shard attaining the minimum key. -/
def argminIdx (key : TestShard → Nat) : List TestShard → Nat
  | [] => 0
  | [_] => 0
  | s :: t :: rest => if minKey key (t :: rest) < key s then argminIdx key (t :: rest) + 1 else 0

/-- Greedy LPT loop shared by `balancedSharding` (key = totalSize) and
`durationBasedSharding` (key = estimatedDuration): each file is pushed into
the first shard with the smallest key. -/
def greedyAssign (key : TestShard → Nat) (shards : List TestShard) : List TestFile → List TestShard
  | [] => shards
  | f :: fs => greedyAssign key (modifyIdx (fun s => pushFile s f) (argminIdx key shards) shards) fs

/-- `TestSharding.balancedSharding` (part_017 lines 523-550): sort by size
descending, then greedily assign to the shard with smallest `totalSize`. -/
def balancedSharding (files : List TestFile) (k : Nat) : List TestShard :=
  greedyAssign (fun s => s.totalSize) (emptyShards k)
    (sortByKeyDesc (fun f => f.size) files)

/-- `TestSharding.durationBasedSharding` (part_017 lines 552-587): if no file
carries a duration estimate, fall back to `balancedSharding`; otherwise sort
by `estimatedDuration || 0` descending and greedily assign to the shard with
smallest `estimatedDuration`. -/
def durationBasedSharding (files : List TestFile) (k : Nat) : List TestShard :=
  if files.any (fun f => f.estimatedDuration.isSome) then
    greedyAssign (fun s => s.estimatedDuration) (emptyShards k)
      (sortByKeyDesc (fun f => f.estimatedDuration.getD 0) files)
  else
    balancedSharding files k

/-- Maximum of a list of naturals (`Math.max(...durations)` on a non-empty
list; `0` is the identity of `max` so no special casing is needed). -/
def listMaxN : List Nat → Nat
  | [] => 0
  | x :: xs => max x (listMaxN xs)

/-- Minimum of a non-empty list of naturals (`Math.min(...durations)`);
returns `0` on `[]`, which never occurs in the source's use. -/
def listMinN : List Nat → Nat
  | [] => 0
  | [x] => x
  | x :: y :: ys => min x (listMinN (y :: ys))

/-- `TestSharding.calculateBalanceScore` (part_017 lines 592-611). -/
def calculateBalanceScore (shards : List TestShard) : ℚ :=
  if shards.length = 0 then 1
  else
    let durations := shards.map (fun s => s.estimatedDuration)
    let maxDuration := listMaxN durations
    let minDuration := listMinN durations
    if maxDuration = 0 then
      let counts := shards.map (fun s => s.files.length)
      let maxCount := listMaxN counts
      let minCount := listMinN counts
      if maxCount = 0 then 1 else (minCount : ℚ) / (maxCount : ℚ)
    else
      (minDuration : ℚ) / (maxDuration : ℚ)

/-- The `strategy` option of `createShards`. -/
inductive Strategy where
  | roundRobin
  | balanced
  | durationBased
deriving DecidableEq, Repr

/-- `ShardingResult` (part_017 lines 444-448). -/
structure ShardingResult where
  shards : List TestShard
  totalShards : Nat
  balanceScore : ℚ
deriving DecidableEq, Repr

/-- `TestSharding.createShards` (part_017 lines 457-495). Thrown `Error`s are
modelled as `Except.error` carrying the source's message. -/
def createShards (files : List TestFile) (shardCount : Nat) (strategy : Strategy) :
    Except String ShardingResult :=
  if shardCount < 1 then .error "Shard count must be at least 1"
  else if files.length = 0 then .error "Cannot create shards from empty file list"
  else
    let actualShardCount := Nat.min shardCount files.length
    let shards :=
      match strategy with
      | .roundRobin => roundRobinSharding files actualShardCount
      | .balanced => balancedSharding files actualShardCount
      | .durationBased => durationBasedSharding files actualShardCount
    .ok { shards := shards, totalShards := actualShardCount,
          balanceScore := calculateBalanceScore shards }

/-! ### Basic lemmas about the sharding building blocks -/

theorem modifyIdx_length {α : Type} (g : α → α) :
    ∀ (n : Nat) (l : List α), (modifyIdx g n l).length = l.length := by
  intro n l
  induction l generalizing n with
  | nil => cases n <;> rfl
  | cons a rest ih => cases n with
    | zero => rfl
    | succ m => simpa [modifyIdx] using ih m

theorem modifyIdx_getElem?_self {α : Type} (g : α → α) (n : Nat) (l : List α)
    (h : n < l.length) : (modifyIdx g n l)[n]? = (l[n]?).map g := by
  induction l generalizing n with
  | nil => simp at h
  | cons a rest ih => cases n with
    | zero => simp [modifyIdx]
    | succ m =>
      simp only [modifyIdx, List.getElem?_cons_succ]
      exact ih m (by simpa using h)

theorem modifyIdx_getElem?_ne {α : Type} (g : α → α) (n m : Nat) (l : List α)
    (h : m ≠ n) : (modifyIdx g n l)[m]? = l[m]? := by
  induction l generalizing n m with
  | nil => cases n <;> rfl
  | cons a rest ih =>
    cases n with
    | zero =>
      cases m with
      | zero => exact absurd rfl h
      | succ j => simp [modifyIdx]
    | succ k =>
      cases m with
      | zero => simp [modifyIdx]
      | succ j =>
        simp only [modifyIdx, List.getElem?_cons_succ]
        exact ih k j (by omega)

theorem mem_modifyIdx {α : Type} (g : α → α) (n : Nat) (l : List α) (x : α)
    (hx : x ∈ modifyIdx g n l) :
    x ∈ l ∨ ∃ a ∈ l, x = g a := by
  induction l generalizing n with
  | nil => simp [modifyIdx] at hx
  | cons a rest ih =>
    cases n with
    | zero =>
      rcases (List.mem_cons).1 hx with h | h
      · exact Or.inr ⟨a, List.mem_cons_self a rest, h⟩
      · exact Or.inl (List.mem_cons_of_mem a h)
    | succ m =>
      rcases (List.mem_cons).1 hx with h | h
      · exact Or.inl (h ▸ List.mem_cons_self a rest)
      · rcases ih m h with h' | ⟨b, hb, hx'⟩
        · exact Or.inl (List.mem_cons_of_mem a h')
        · exact Or.inr ⟨b, List.mem_cons_of_mem a hb, hx'⟩

theorem map_modifyIdx {α β : Type} (g : α → α) (φ : α → β)
    (hg : ∀ a, φ (g a) = φ a) :
    ∀ (n : Nat) (l : List α), (modifyIdx g n l).map φ = l.map φ := by
  intro n l
  induction l generalizing n with
  | nil => cases n <;> rfl
  | cons a rest ih => cases n with
    | zero => simp [modifyIdx, hg]
    | succ m => simp [modifyIdx, ih m]

/-- The concatenation of all files of all shards. -/
def allFiles (shards : List TestShard) : List TestFile :=
  (shards.map (fun s => s.files)).flatten

theorem allFiles_modifyIdx_push (f : TestFile) (n : Nat) (l : List TestShard)
    (h : n < l.length) :
    (allFiles (modifyIdx (fun s => pushFile s f) n l)).Perm (f :: allFiles l) := by
  induction l generalizing n with
  | nil => simp at h
  | cons s rest ih =>
    cases n with
    | zero =>
      simp only [modifyIdx, allFiles, List.map_cons, List.flatten_cons, pushFile]
      have heq : (s.files ++ [f]) ++ (rest.map (fun s => s.files)).flatten
          = s.files ++ (f :: (rest.map (fun s => s.files)).flatten) := by simp
      rw [heq]
      exact List.perm_middle
    | succ m =>
      simp only [modifyIdx, allFiles, List.map_cons, List.flatten_cons]
      exact ((ih m (by simpa using h)).append_left s.files).trans List.perm_middle

theorem argminIdx_lt (key : TestShard → Nat) :
    ∀ (l : List TestShard), l ≠ [] → argminIdx key l < l.length := by
  intro l
  induction l with
  | nil => intro h; exact absurd rfl h
  | cons s rest ih =>
    intro _
    cases rest with
    | nil => simp [argminIdx]
    | cons t rest' =>
      simp only [argminIdx]
      split
      · have := ih (by simp)
        simpa [Nat.succ_lt_succ_iff] using this
      · simp

theorem greedyAssign_length (key : TestShard → Nat) :
    ∀ (fs : List TestFile) (shards : List TestShard),
    (greedyAssign key shards fs).length = shards.length := by
  intro fs
  induction fs with
  | nil => intro shards; rfl
  | cons f fs ih =>
    intro shards
    simp [greedyAssign, ih, modifyIdx_length]

theorem allFiles_greedyAssign (key : TestShard → Nat) :
    ∀ (fs : List TestFile) (shards : List TestShard), shards ≠ [] →
    (allFiles (greedyAssign key shards fs)).Perm (fs ++ allFiles shards) := by
  intro fs
  induction fs with
  | nil => intro shards _; simp [greedyAssign]
  | cons f fs ih =>
    intro shards hne
    have hlt : argminIdx key shards < shards.length := argminIdx_lt key shards hne
    have hlen : (modifyIdx (fun s => pushFile s f) (argminIdx key shards) shards).length
        = shards.length := modifyIdx_length _ _ _
    have hne' : modifyIdx (fun s => pushFile s f) (argminIdx key shards) shards ≠ [] := by
      intro hcon
      rw [hcon] at hlen
      simp at hlen
      exact hne (List.length_eq_zero.mp hlen.symm)
    exact (ih _ hne').trans
      (((allFiles_modifyIdx_push f _ shards hlt).append_left fs).trans List.perm_middle)

theorem roundRobinGo_length (k : Nat) :
    ∀ (fs : List TestFile) (shards : List TestShard) (i : Nat),
    (roundRobinGo k shards i fs).length = shards.length := by
  intro fs
  induction fs with
  | nil => intro shards i; rfl
  | cons f fs ih =>
    intro shards i
    simp [roundRobinGo, ih, modifyIdx_length]

theorem allFiles_roundRobinGo (k : Nat) :
    ∀ (fs : List TestFile) (shards : List TestShard) (i : Nat),
    shards.length = k → 0 < k →
    (allFiles (roundRobinGo k shards i fs)).Perm (fs ++ allFiles shards) := by
  intro fs
  induction fs with
  | nil => intro shards i _ _; simp [roundRobinGo]
  | cons f fs ih =>
    intro shards i hlen hk
    have hlt : i % k < shards.length := by
      rw [hlen]; exact Nat.mod_lt _ hk
    have hlen' : (modifyIdx (fun s => pushFile s f) (i % k) shards).length = k := by
      rw [modifyIdx_length]; exact hlen
    exact (ih _ _ hlen' hk).trans
      (((allFiles_modifyIdx_push f _ shards hlt).append_left fs).trans List.perm_middle)

theorem insertDesc_perm (key : TestFile → Nat) (x : TestFile) :
    ∀ (l : List TestFile), (insertDesc key x l).Perm (x :: l) := by
  intro l
  induction l with
  | nil => simp [insertDesc]
  | cons y ys ih =>
    simp only [insertDesc]
    split
    · exact List.Perm.refl _
    · exact (ih.cons y).trans (List.Perm.swap x y ys)

theorem sortByKeyDesc_perm_aux (key : TestFile → Nat) :
    ∀ (l acc : List TestFile),
    (l.foldl (fun acc x => insertDesc key x acc) acc).Perm (acc ++ l) := by
  intro l
  induction l with
  | nil => intro acc; simp
  | cons x xs ih =>
    intro acc
    exact (ih _).trans
      (((insertDesc_perm key x acc).append_right xs).trans List.perm_middle.symm)

theorem sortByKeyDesc_perm (key : TestFile → Nat) (l : List TestFile) :
    (sortByKeyDesc key l).Perm l := by
  simpa using sortByKeyDesc_perm_aux key l []

theorem emptyShards_length (k : Nat) : (emptyShards k).length = k := by
  simp [emptyShards]

theorem allFiles_emptyShards (k : Nat) : allFiles (emptyShards k) = [] := by
  induction k with
  | zero => rfl
  | succ n ih =>
    simp only [emptyShards, List.range_succ, List.map_append, allFiles] at ih ⊢
    simp_all

theorem emptyShards_map_id (k : Nat) :
    (emptyShards k).map (fun s => s.id) = List.range k := by
  rw [emptyShards, List.map_map]
  show (List.range k).map (fun i => i) = List.range k
  simp

theorem greedyAssign_map_id (key : TestShard → Nat) :
    ∀ (fs : List TestFile) (shards : List TestShard),
    (greedyAssign key shards fs).map (fun s => s.id) = shards.map (fun s => s.id) := by
  intro fs
  induction fs with
  | nil => intro shards; rfl
  | cons f fs ih =>
    intro shards
    rw [greedyAssign, ih, map_modifyIdx]
    intro a; rfl

theorem roundRobinGo_map_id (k : Nat) :
    ∀ (fs : List TestFile) (shards : List TestShard) (i : Nat),
    (roundRobinGo k shards i fs).map (fun s => s.id) = shards.map (fun s => s.id) := by
  intro fs
  induction fs with
  | nil => intro shards i; rfl
  | cons f fs ih =>
    intro shards i
    rw [roundRobinGo, ih, map_modifyIdx]
    intro a; rfl

theorem balancedSharding_map_id (files : List TestFile) (k : Nat) :
    (balancedSharding files k).map (fun s => s.id) = List.range k := by
  rw [balancedSharding, greedyAssign_map_id, emptyShards_map_id]

theorem durationBasedSharding_map_id (files : List TestFile) (k : Nat) :
    (durationBasedSharding files k).map (fun s => s.id) = List.range k := by
  rw [durationBasedSharding]
  split
  · rw [greedyAssign_map_id, emptyShards_map_id]
  · exact balancedSharding_map_id files k

theorem roundRobinSharding_map_id (files : List TestFile) (k : Nat) :
    (roundRobinSharding files k).map (fun s => s.id) = List.range k := by
  rw [roundRobinSharding, roundRobinGo_map_id, emptyShards_map_id]

theorem emptyShards_ne_nil (k : Nat) (hk : 0 < k) : emptyShards k ≠ [] := by
  intro hcon
  have := emptyShards_length k
  rw [hcon] at this
  simp at this
  omega

theorem allFiles_balancedSharding (files : List TestFile) (k : Nat) (hk : 0 < k) :
    (allFiles (balancedSharding files k)).Perm files := by
  rw [balancedSharding]
  have h1 := allFiles_greedyAssign (fun s => s.totalSize)
    (sortByKeyDesc (fun f => f.size) files) (emptyShards k) (emptyShards_ne_nil k hk)
  rw [allFiles_emptyShards, List.append_nil] at h1
  exact h1.trans (sortByKeyDesc_perm _ files)

theorem allFiles_durationBasedSharding (files : List TestFile) (k : Nat) (hk : 0 < k) :
    (allFiles (durationBasedSharding files k)).Perm files := by
  rw [durationBasedSharding]
  split
  · have h1 := allFiles_greedyAssign (fun s => s.estimatedDuration)
      (sortByKeyDesc (fun f => f.estimatedDuration.getD 0) files) (emptyShards k)
      (emptyShards_ne_nil k hk)
    rw [allFiles_emptyShards, List.append_nil] at h1
    exact h1.trans (sortByKeyDesc_perm _ files)
  · exact allFiles_balancedSharding files k hk

theorem allFiles_roundRobinSharding (files : List TestFile) (k : Nat) (hk : 0 < k) :
    (allFiles (roundRobinSharding files k)).Perm files := by
  rw [roundRobinSharding]
  have h1 := allFiles_roundRobinGo k files (emptyShards k) 0 (emptyShards_length k) hk
  rw [allFiles_emptyShards, List.append_nil] at h1
  exact h1

theorem createShards_ok (files : List TestFile) (K : Nat) (strat : Strategy)
    (hne : files ≠ []) (hK : 1 ≤ K) :
    createShards files K strat = .ok
      { shards := match strat with
          | .roundRobin => roundRobinSharding files (Nat.min K files.length)
          | .balanced => balancedSharding files (Nat.min K files.length)
          | .durationBased => durationBasedSharding files (Nat.min K files.length)
        totalShards := Nat.min K files.length
        balanceScore := calculateBalanceScore (match strat with
          | .roundRobin => roundRobinSharding files (Nat.min K files.length)
          | .balanced => balancedSharding files (Nat.min K files.length)
          | .durationBased => durationBasedSharding files (Nat.min K files.length)) } := by
  rw [createShards]
  rw [if_neg (by omega), if_neg (by simp [List.length_eq_zero]; exact hne)]

/-- C1: for every non-empty input list and every K ≥ 1, under each strategy,
`createShards` succeeds and the shards partition the input: the concatenation
of all shard file lists is a permutation of the input (so every input file
lands in exactly one shard, counted with multiplicity, and no foreign file
appears), and shard ids are exactly the contiguous range
`0 .. min K files.length - 1`. -/
theorem createShards_partition (files : List TestFile) (K : Nat) (strat : Strategy)
    (hne : files ≠ []) (hK : 1 ≤ K) :
    ∃ r, createShards files K strat = .ok r ∧
      r.totalShards = Nat.min K files.length ∧
      r.shards.map (fun s => s.id) = List.range (Nat.min K files.length) ∧
      (allFiles r.shards).Perm files := by
  have hk : 0 < Nat.min K files.length :=
    Nat.lt_min.mpr ⟨by omega, List.length_pos.mpr hne⟩
  refine ⟨_, createShards_ok files K strat hne hK, rfl, ?_, ?_⟩
  · cases strat
    · exact roundRobinSharding_map_id files _
    · exact balancedSharding_map_id files _
    · exact durationBasedSharding_map_id files _
  · cases strat
    · exact allFiles_roundRobinSharding files _ hk
    · exact allFiles_balancedSharding files _ hk
    · exact allFiles_durationBasedSharding files _ hk

/-- Witness for C1 at a concrete input: three files, K = 2, balanced. -/
theorem createShards_partition_witness :
    ([{ path := "a", relativePath := "a", framework := "playwright", size := 3,
        estimatedDuration := none },
      { path := "b", relativePath := "b", framework := "playwright", size := 2,
        estimatedDuration := none }] : List TestFile) ≠ [] ∧ 1 ≤ 2 ∧
    ∃ r, createShards
      [{ path := "a", relativePath := "a", framework := "playwright", size := 3,
         estimatedDuration := none },
       { path := "b", relativePath := "b", framework := "playwright", size := 2,
         estimatedDuration := none }] 2 .balanced = .ok r ∧
      r.totalShards = Nat.min 2 2 ∧
      r.shards.map (fun s => s.id) = List.range (Nat.min 2 2) ∧
      (allFiles r.shards).Perm
        [{ path := "a", relativePath := "a", framework := "playwright", size := 3,
           estimatedDuration := none },
         { path := "b", relativePath := "b", framework := "playwright", size := 2,
           estimatedDuration := none }] :=
  ⟨by simp, by omega, createShards_partition _ 2 .balanced (by simp) (by omega)⟩

/-! ### C10: per-shard `totalSize` / `estimatedDuration` bookkeeping -/

/-- A shard's cached totals agree with its file list: `totalSize` is the sum
of file sizes and `estimatedDuration` the sum of `estimatedDuration || 0`. -/
def shardSums (s : TestShard) : Prop :=
  s.totalSize = (s.files.map (fun f => f.size)).sum ∧
  s.estimatedDuration = (s.files.map (fun f => f.estimatedDuration.getD 0)).sum

theorem shardSums_pushFile (s : TestShard) (f : TestFile) (h : shardSums s) :
    shardSums (pushFile s f) := by
  obtain ⟨h1, h2⟩ := h
  constructor
  · simp [pushFile, h1]
  · simp [pushFile, h2]

theorem shardSums_modifyIdx (f : TestFile) (n : Nat) (l : List TestShard)
    (h : ∀ s ∈ l, shardSums s) :
    ∀ s ∈ modifyIdx (fun s => pushFile s f) n l, shardSums s := by
  intro s hs
  rcases mem_modifyIdx _ n l s hs with h' | ⟨a, ha, rfl⟩
  · exact h s h'
  · exact shardSums_pushFile a f (h a ha)

theorem shardSums_greedyAssign (key : TestShard → Nat) :
    ∀ (fs : List TestFile) (shards : List TestShard),
    (∀ s ∈ shards, shardSums s) →
    ∀ s ∈ greedyAssign key shards fs, shardSums s := by
  intro fs
  induction fs with
  | nil => intro shards h; exact h
  | cons f fs ih =>
    intro shards h
    exact ih _ (shardSums_modifyIdx f _ shards h)

theorem shardSums_roundRobinGo (k : Nat) :
    ∀ (fs : List TestFile) (shards : List TestShard) (i : Nat),
    (∀ s ∈ shards, shardSums s) →
    ∀ s ∈ roundRobinGo k shards i fs, shardSums s := by
  intro fs
  induction fs with
  | nil => intro shards i h; exact h
  | cons f fs ih =>
    intro shards i h
    exact ih _ _ (shardSums_modifyIdx f _ shards h)

theorem shardSums_emptyShards (k : Nat) : ∀ s ∈ emptyShards k, shardSums s := by
  intro s hs
  rw [emptyShards] at hs
  rcases List.mem_map.mp hs with ⟨i, _, rfl⟩
  exact ⟨rfl, rfl⟩

/-- C10: every shard produced by `createShards`, under any strategy, carries a
`totalSize` equal to the sum of its files' sizes and an `estimatedDuration`
equal to the sum of its files' duration estimates (missing estimate = 0). -/
theorem createShards_shardSums (files : List TestFile) (K : Nat) (strat : Strategy)
    (r : ShardingResult) (h : createShards files K strat = .ok r) :
    ∀ s ∈ r.shards, shardSums s := by
  rw [createShards] at h
  split at h
  · exact absurd h (by simp)
  · split at h
    · exact absurd h (by simp)
    · rcases (Except.ok.injEq _ _).mp h.symm with rfl
      cases strat
      · exact shardSums_roundRobinGo _ files (emptyShards _) 0 (shardSums_emptyShards _)
      · exact shardSums_greedyAssign _ _ (emptyShards _) (shardSums_emptyShards _)
      · show ∀ s ∈ durationBasedSharding files _, shardSums s
        rw [durationBasedSharding]
        split
        · exact shardSums_greedyAssign _ _ (emptyShards _) (shardSums_emptyShards _)
        · exact shardSums_greedyAssign _ _ (emptyShards _) (shardSums_emptyShards _)

/-- Witness for C10 at a concrete input. -/
theorem createShards_shardSums_witness :
    ∃ r, createShards
      [{ path := "a", relativePath := "a", framework := "cypress", size := 7,
         estimatedDuration := some 4 },
       { path := "b", relativePath := "b", framework := "cypress", size := 2,
         estimatedDuration := none }] 2 .durationBased = .ok r ∧
      ∀ s ∈ r.shards, shardSums s := by
  refine ⟨_, createShards_ok _ 2 .durationBased (by simp) (by omega), ?_⟩
  exact createShards_shardSums _ 2 .durationBased _
    (createShards_ok _ 2 .durationBased (by simp) (by omega))

/-! ### C9: duration-based with no estimates coincides with size-balanced -/

/-- C9: when no file carries a duration estimate, the duration-based strategy
returns exactly the same sharding (and hence the same `createShards` result)
as the size-balanced strategy, for every shard count. -/
theorem durationBased_eq_balanced_of_no_estimates (files : List TestFile) (K : Nat)
    (h : ∀ f ∈ files, f.estimatedDuration = none) :
    createShards files K .durationBased = createShards files K .balanced := by
  have hany : files.any (fun f => f.estimatedDuration.isSome) = false := by
    rw [List.any_eq_false]
    intro f hf
    rw [h f hf]
    simp
  have hshard : ∀ k, durationBasedSharding files k = balancedSharding files k := by
    intro k
    rw [durationBasedSharding, hany]
    simp
  rw [createShards, createShards]
  split
  · rfl
  · split
    · rfl
    · show (Except.ok
          { shards := durationBasedSharding files (Nat.min K files.length)
            totalShards := Nat.min K files.length
            balanceScore :=
              calculateBalanceScore (durationBasedSharding files (Nat.min K files.length)) }
          : Except String ShardingResult) =
        Except.ok
          { shards := balancedSharding files (Nat.min K files.length)
            totalShards := Nat.min K files.length
            balanceScore :=
              calculateBalanceScore (balancedSharding files (Nat.min K files.length)) }
      rw [hshard]

/-- Witness for C9 at a concrete input: two estimate-free files, K = 2. -/
theorem durationBased_eq_balanced_witness :
    createShards
      [{ path := "a", relativePath := "a", framework := "playwright", size := 5,
         estimatedDuration := none },
       { path := "b", relativePath := "b", framework := "playwright", size := 3,
         estimatedDuration := none }] 2 .durationBased =
    createShards
      [{ path := "a", relativePath := "a", framework := "playwright", size := 5,
         estimatedDuration := none },
       { path := "b", relativePath := "b", framework := "playwright", size := 3,
         estimatedDuration := none }] 2 .balanced :=
  durationBased_eq_balanced_of_no_estimates _ 2 (by decide)

/-! ### C6: the spec's concrete LPT example -/

/-- An example file whose size and duration estimate both equal `d` ms. -/
def lptFile (p : String) (d : Nat) : TestFile :=
  { path := p, relativePath := p, framework := "playwright", size := d,
    estimatedDuration := some d }

/-- The five files of the spec's LPT example: durations (and sizes)
10, 5, 2, 2, 1 ms. -/
def lptExampleFiles : List TestFile :=
  [lptFile "f10" 10, lptFile "f5" 5, lptFile "f2a" 2, lptFile "f2b" 2, lptFile "f1" 1]

/-- The split the LPT greedy actually produces on the example: shard 0 gets
the 10 ms file, shard 1 gets 5+2+2+1 = 10 ms. -/
def lptExampleShards : List TestShard :=
  [{ id := 0, files := [lptFile "f10" 10], estimatedDuration := 10, totalSize := 10 },
   { id := 1, files := [lptFile "f5" 5, lptFile "f2a" 2, lptFile "f2b" 2, lptFile "f1" 1],
     estimatedDuration := 10, totalSize := 10 }]

theorem lptExample_durationBased :
    durationBasedSharding lptExampleFiles 2 = lptExampleShards := by decide

theorem lptExample_balanced :
    balancedSharding lptExampleFiles 2 = lptExampleShards := by decide

theorem lptExample_score : calculateBalanceScore lptExampleShards = 1 := by
  norm_num [calculateBalanceScore, lptExampleShards, listMaxN, listMinN]

/-- C6 counterexample: on durations [10,5,2,2,1] with K = 2, the
duration-based planner does NOT produce the claimed split
shard0 = [10,1] (total 11) / shard1 = [5,2,2] (total 9) with score 9/11:
the greedy LPT loop puts the final 1 ms file on the shard whose running total
is 9, yielding shard0 = [10] and shard1 = [5,2,2,1] with totals 10/10 and
BalanceScore 1, which differs from 9/11. -/
theorem lptExample_counterexample :
    ∃ r, createShards lptExampleFiles 2 .durationBased = .ok r ∧
      r.shards.map (fun s => s.files.map (fun f => f.estimatedDuration.getD 0)) =
        [[10], [5, 2, 2, 1]] ∧
      r.shards.map (fun s => s.estimatedDuration) = [10, 10] ∧
      r.balanceScore = 1 ∧ ¬ r.balanceScore = 9 / 11 := by
  have hmin : Nat.min 2 lptExampleFiles.length = 2 := by decide
  have hscore : calculateBalanceScore
      (durationBasedSharding lptExampleFiles (Nat.min 2 lptExampleFiles.length)) = 1 := by
    rw [hmin, lptExample_durationBased, lptExample_score]
  refine ⟨_, createShards_ok lptExampleFiles 2 .durationBased (by decide) (by omega),
    by decide, by decide, hscore, ?_⟩
  intro hc
  have hc' : calculateBalanceScore
      (durationBasedSharding lptExampleFiles (Nat.min 2 lptExampleFiles.length)) = 9 / 11 := hc
  rw [hscore] at hc'
  norm_num at hc'

/-- C6 amended: on the spec's example the LPT planner assigns shard 0 the
single 10 ms file and shard 1 the files 5, 2, 2, 1 ms (totals 10 and 10),
with BalanceScore 1; the size-balanced strategy on the same sizes gives the
same assignment. -/
theorem lptExample_amended :
    ∃ r r', createShards lptExampleFiles 2 .durationBased = .ok r ∧
      createShards lptExampleFiles 2 .balanced = .ok r' ∧
      r.shards = lptExampleShards ∧ r'.shards = lptExampleShards ∧
      r.shards.map (fun s => s.files.map (fun f => f.estimatedDuration.getD 0)) =
        [[10], [5, 2, 2, 1]] ∧
      r.shards.map (fun s => s.estimatedDuration) = [10, 10] ∧
      r.balanceScore = 1 := by
  have hmin : Nat.min 2 lptExampleFiles.length = 2 := by decide
  have hscore : calculateBalanceScore
      (durationBasedSharding lptExampleFiles (Nat.min 2 lptExampleFiles.length)) = 1 := by
    rw [hmin, lptExample_durationBased, lptExample_score]
  refine ⟨_, _,
    createShards_ok lptExampleFiles 2 .durationBased (by decide) (by omega),
    createShards_ok lptExampleFiles 2 .balanced (by decide) (by omega),
    by decide, by decide, by decide, by decide, hscore⟩

/-! ### C8: the balance score is in [0,1] and is 1 exactly on even plans -/

theorem le_listMaxN : ∀ (l : List Nat), ∀ a ∈ l, a ≤ listMaxN l := by
  intro l
  induction l with
  | nil => intro a ha; cases ha
  | cons x xs ih =>
    intro a ha
    rcases List.mem_cons.mp ha with rfl | ha'
    · exact le_max_left _ _
    · exact (ih a ha').trans (le_max_right _ _)

theorem listMinN_le : ∀ (l : List Nat), ∀ a ∈ l, listMinN l ≤ a := by
  intro l
  induction l with
  | nil => intro a ha; cases ha
  | cons x xs ih =>
    intro a ha
    cases xs with
    | nil =>
      rcases List.mem_cons.mp ha with rfl | ha'
      · exact Nat.le_refl _
      · cases ha'
    | cons y ys =>
      rcases List.mem_cons.mp ha with rfl | ha'
      · exact min_le_left _ _
      · exact (min_le_right _ _).trans (ih a ha')

theorem listMaxN_mem : ∀ (l : List Nat), l ≠ [] → listMaxN l ∈ l := by
  intro l
  induction l with
  | nil => intro h; exact absurd rfl h
  | cons x xs ih =>
    intro _
    cases xs with
    | nil => simp [listMaxN]
    | cons y ys =>
      rw [listMaxN, max_def]
      split
      · exact List.mem_cons_of_mem x (ih (by simp))
      · exact List.mem_cons_self x _

theorem listMinN_mem : ∀ (l : List Nat), l ≠ [] → listMinN l ∈ l := by
  intro l
  induction l with
  | nil => intro h; exact absurd rfl h
  | cons x xs ih =>
    intro _
    cases xs with
    | nil => simp [listMinN]
    | cons y ys =>
      rw [listMinN, min_def]
      split
      · exact List.mem_cons_self x _
      · exact List.mem_cons_of_mem x (ih (by simp))

theorem listMinN_le_listMaxN (l : List Nat) (hne : l ≠ []) : listMinN l ≤ listMaxN l :=
  (listMinN_le l _ (listMaxN_mem l hne))

theorem listMinN_eq_listMaxN_iff (l : List Nat) (hne : l ≠ []) :
    listMinN l = listMaxN l ↔ ∀ a ∈ l, ∀ b ∈ l, a = b := by
  constructor
  · intro h a ha b hb
    have h1 : a ≤ listMaxN l := le_listMaxN l a ha
    have h2 : listMinN l ≤ a := listMinN_le l a ha
    have h3 : b ≤ listMaxN l := le_listMaxN l b hb
    have h4 : listMinN l ≤ b := listMinN_le l b hb
    omega
  · intro h
    exact h _ (listMinN_mem l hne) _ (listMaxN_mem l hne)

theorem listMaxN_eq_zero (l : List Nat) (h : listMaxN l = 0) : ∀ a ∈ l, a = 0 := by
  intro a ha
  have := le_listMaxN l a ha
  omega

theorem forall_mem_map_eq (φ : TestShard → Nat) (l : List TestShard) :
    (∀ a ∈ l.map φ, ∀ b ∈ l.map φ, a = b) ↔ (∀ s ∈ l, ∀ t ∈ l, φ s = φ t) := by
  constructor
  · intro h s hs t ht
    exact h _ (List.mem_map_of_mem φ hs) _ (List.mem_map_of_mem φ ht)
  · intro h a ha b hb
    rcases List.mem_map.mp ha with ⟨s, hs, rfl⟩
    rcases List.mem_map.mp hb with ⟨t, ht, rfl⟩
    exact h s hs t ht

/-- The claim's balance condition: all per-shard durations equal; when the
plan has no duration information (all per-shard durations are zero, i.e. the
`maxDuration === 0` branch of the source), all per-shard file counts equal. -/
def evenlyBalanced (shards : List TestShard) : Prop :=
  if listMaxN (shards.map (fun s => s.estimatedDuration)) = 0 then
    ∀ s ∈ shards, ∀ t ∈ shards, s.files.length = t.files.length
  else
    ∀ s ∈ shards, ∀ t ∈ shards, s.estimatedDuration = t.estimatedDuration

theorem calculateBalanceScore_spec (shards : List TestShard) (hne : shards ≠ []) :
    0 ≤ calculateBalanceScore shards ∧ calculateBalanceScore shards ≤ 1 ∧
    (calculateBalanceScore shards = 1 ↔ evenlyBalanced shards) := by
  have hlen : ¬ shards.length = 0 := by
    simp [List.length_eq_zero]
    exact hne
  have hmapne : ∀ (φ : TestShard → Nat), shards.map φ ≠ [] := by
    intro φ hcon
    exact hne (List.map_eq_nil_iff.mp hcon)
  rw [calculateBalanceScore, if_neg hlen, evenlyBalanced]
  by_cases hmax : listMaxN (shards.map (fun s => s.estimatedDuration)) = 0
  · rw [if_pos hmax]
    simp only [hmax, if_pos rfl]
    by_cases hmc : listMaxN (shards.map (fun s => s.files.length)) = 0
    · rw [if_pos hmc]
      refine ⟨by norm_num, by norm_num, ?_⟩
      constructor
      · intro _ s hs t ht
        have h1 := listMaxN_eq_zero _ hmc _ (List.mem_map_of_mem _ hs)
        have h2 := listMaxN_eq_zero _ hmc _ (List.mem_map_of_mem _ ht)
        omega
      · intro _; rfl
    · rw [if_neg hmc]
      have hpos : (0 : ℚ) < (listMaxN (shards.map (fun s => s.files.length)) : ℚ) := by
        have : 0 < listMaxN (shards.map (fun s => s.files.length)) := Nat.pos_of_ne_zero hmc
        exact_mod_cast this
      have hle : listMinN (shards.map (fun s => s.files.length)) ≤
          listMaxN (shards.map (fun s => s.files.length)) :=
        listMinN_le_listMaxN _ (hmapne _)
      refine ⟨div_nonneg (by positivity) hpos.le, (div_le_one hpos).mpr (by exact_mod_cast hle), ?_⟩
      rw [div_eq_one_iff_eq hpos.ne']
      rw [show ((listMinN (shards.map (fun s => s.files.length)) : ℚ) =
          (listMaxN (shards.map (fun s => s.files.length)) : ℚ)) ↔
          (listMinN (shards.map (fun s => s.files.length)) =
            listMaxN (shards.map (fun s => s.files.length))) from Nat.cast_inj]
      rw [listMinN_eq_listMaxN_iff _ (hmapne _)]
      exact forall_mem_map_eq _ shards
  · rw [if_neg hmax]
    simp only [hmax, if_neg]
    have hpos : (0 : ℚ) < (listMaxN (shards.map (fun s => s.estimatedDuration)) : ℚ) := by
      have : 0 < listMaxN (shards.map (fun s => s.estimatedDuration)) := Nat.pos_of_ne_zero hmax
      exact_mod_cast this
    have hle : listMinN (shards.map (fun s => s.estimatedDuration)) ≤
        listMaxN (shards.map (fun s => s.estimatedDuration)) :=
      listMinN_le_listMaxN _ (hmapne _)
    refine ⟨div_nonneg (by positivity) hpos.le, (div_le_one hpos).mpr (by exact_mod_cast hle), ?_⟩
    rw [div_eq_one_iff_eq hpos.ne']
    rw [show ((listMinN (shards.map (fun s => s.estimatedDuration)) : ℚ) =
        (listMaxN (shards.map (fun s => s.estimatedDuration)) : ℚ)) ↔
        (listMinN (shards.map (fun s => s.estimatedDuration)) =
          listMaxN (shards.map (fun s => s.estimatedDuration))) from Nat.cast_inj]
    rw [listMinN_eq_listMaxN_iff _ (hmapne _)]
    exact forall_mem_map_eq _ shards

theorem roundRobinSharding_length (files : List TestFile) (k : Nat) :
    (roundRobinSharding files k).length = k := by
  rw [roundRobinSharding, roundRobinGo_length, emptyShards_length]

theorem balancedSharding_length (files : List TestFile) (k : Nat) :
    (balancedSharding files k).length = k := by
  rw [balancedSharding, greedyAssign_length, emptyShards_length]

theorem durationBasedSharding_length (files : List TestFile) (k : Nat) :
    (durationBasedSharding files k).length = k := by
  rw [durationBasedSharding]
  split
  · rw [greedyAssign_length, emptyShards_length]
  · exact balancedSharding_length files k

theorem createShards_shards_length (files : List TestFile) (K : Nat) (strat : Strategy)
    (r : ShardingResult) (h : createShards files K strat = .ok r) :
    r.shards.length = Nat.min K files.length ∧ 1 ≤ K ∧ files ≠ [] ∧
    r.balanceScore = calculateBalanceScore r.shards := by
  rw [createShards] at h
  split at h
  · exact absurd h (by simp)
  · split at h
    · exact absurd h (by simp)
    · rcases (Except.ok.injEq _ _).mp h.symm with rfl
      refine ⟨?_, by omega, ?_, rfl⟩
      · cases strat
        · exact roundRobinSharding_length files _
        · exact balancedSharding_length files _
        · exact durationBasedSharding_length files _
      · intro hcon
        subst hcon
        simp_all

/-- C8: for every shard plan returned by `createShards`, the balance score
lies in [0,1], and equals 1 exactly when all per-shard durations are equal —
per-shard file counts standing in when the plan carries no duration
information (all per-shard durations zero, the source's `maxDuration === 0`
branch). -/
theorem createShards_balanceScore (files : List TestFile) (K : Nat) (strat : Strategy)
    (r : ShardingResult) (h : createShards files K strat = .ok r) :
    0 ≤ r.balanceScore ∧ r.balanceScore ≤ 1 ∧
    (r.balanceScore = 1 ↔ evenlyBalanced r.shards) := by
  obtain ⟨hlen, hK, hne, hscore⟩ := createShards_shards_length files K strat r h
  have hshne : r.shards ≠ [] := by
    intro hcon
    rw [hcon] at hlen
    have : 0 < Nat.min K files.length :=
      Nat.lt_min.mpr ⟨by omega, List.length_pos.mpr hne⟩
    simp at hlen
    omega
  rw [hscore]
  exact calculateBalanceScore_spec r.shards hshne

/-- Witness for C8 at a concrete input. -/
theorem createShards_balanceScore_witness :
    ∃ r, createShards lptExampleFiles 2 .durationBased = .ok r ∧
      (0 ≤ r.balanceScore ∧ r.balanceScore ≤ 1 ∧
       (r.balanceScore = 1 ↔ evenlyBalanced r.shards)) :=
  ⟨_, createShards_ok lptExampleFiles 2 .durationBased (by decide) (by omega),
   createShards_balanceScore lptExampleFiles 2 .durationBased _
     (createShards_ok lptExampleFiles 2 .durationBased (by decide) (by omega))⟩

/-! ### C7: shard count reduction and absence of empty shards -/

theorem minKey_le (key : TestShard → Nat) :
    ∀ (l : List TestShard), ∀ s ∈ l, minKey key l ≤ key s := by
  intro l
  induction l with
  | nil => intro s hs; cases hs
  | cons a rest ih =>
    intro s hs
    cases rest with
    | nil =>
      rcases List.mem_cons.mp hs with rfl | hs'
      · exact Nat.le_refl _
      · cases hs'
    | cons b rest' =>
      rcases List.mem_cons.mp hs with rfl | hs'
      · exact min_le_left _ _
      · exact (min_le_right _ _).trans (ih s hs')

theorem get_argminIdx (key : TestShard → Nat) :
    ∀ (l : List TestShard), l ≠ [] →
    ∃ (h : argminIdx key l < l.length),
      key (l.get ⟨argminIdx key l, h⟩) = minKey key l := by
  intro l
  induction l with
  | nil => intro h; exact absurd rfl h
  | cons a rest ih =>
    intro _
    cases rest with
    | nil => exact ⟨by simp [argminIdx], rfl⟩
    | cons b rest' =>
      rw [argminIdx]
      by_cases hlt : minKey key (b :: rest') < key a
      · rw [if_pos hlt]
        obtain ⟨h, hk⟩ := ih (by simp)
        refine ⟨by simpa [Nat.succ_lt_succ_iff] using h, ?_⟩
        show key ((b :: rest').get ⟨argminIdx key (b :: rest'), h⟩) = _
        rw [hk, minKey, min_eq_right hlt.le]
      · rw [if_neg hlt]
        refine ⟨by simp, ?_⟩
        show key a = _
        rw [minKey, min_eq_left (by omega)]

/-- Number of shards with an empty file list. -/
def countEmpty (shards : List TestShard) : Nat :=
  shards.countP (fun s => decide (s.files = []))

theorem countP_modifyIdx {α : Type} (p : α → Bool) (g : α → α) :
    ∀ (n : Nat) (l : List α) (h : n < l.length),
    p (l.get ⟨n, h⟩) = true → p (g (l.get ⟨n, h⟩)) = false →
    (modifyIdx g n l).countP p + 1 = l.countP p := by
  intro n l
  induction l generalizing n with
  | nil => intro h; simp at h
  | cons a rest ih =>
    intro h hp hgp
    cases n with
    | zero =>
      simp only [List.get] at hp hgp
      simp [modifyIdx, List.countP_cons, hp, hgp]
    | succ m =>
      simp only [List.get] at hp hgp
      have := ih m (by simpa using h) hp hgp
      simp only [modifyIdx, List.countP_cons]
      omega

theorem greedyAssign_nil (key : TestShard → Nat) :
    ∀ (fs : List TestFile), greedyAssign key [] fs = [] := by
  intro fs
  induction fs with
  | nil => rfl
  | cons f fs ih => simpa [greedyAssign, argminIdx, modifyIdx] using ih

theorem greedyAssign_preserve_ne (key : TestShard → Nat) :
    ∀ (fs : List TestFile) (shards : List TestShard),
    (∀ s ∈ shards, s.files ≠ []) →
    ∀ s ∈ greedyAssign key shards fs, s.files ≠ [] := by
  intro fs
  induction fs with
  | nil => intro shards h; exact h
  | cons f fs ih =>
    intro shards h
    refine ih _ ?_
    intro s hs
    rcases mem_modifyIdx _ _ shards s hs with h' | ⟨a, ha, rfl⟩
    · exact h s h'
    · simp [pushFile]

theorem greedyAssign_fill (key : TestShard → Nat) (w : TestFile → Nat)
    (hkw : ∀ s f, key (pushFile s f) = key s + w f) :
    ∀ (fs : List TestFile) (shards : List TestShard),
    (∀ f ∈ fs, 0 < w f) →
    (∀ s ∈ shards, (s.files = [] ↔ key s = 0)) →
    countEmpty shards ≤ fs.length →
    ∀ s ∈ greedyAssign key shards fs, s.files ≠ [] := by
  intro fs
  induction fs with
  | nil =>
    intro shards _ _ hcount s hs
    have hzero : countEmpty shards = 0 := by simpa [Nat.le_zero] using hcount
    have := List.countP_eq_zero.mp hzero s hs
    simpa using this
  | cons f fs ih =>
    intro shards hw hinv hcount
    by_cases hne : shards = []
    · subst hne
      rw [show greedyAssign key [] (f :: fs) = [] from greedyAssign_nil key _]
      intro s hs
      cases hs
    · by_cases hemp : countEmpty shards = 0
      · refine greedyAssign_preserve_ne key (f :: fs) shards ?_
        intro s hs
        have := List.countP_eq_zero.mp hemp s hs
        simpa using this
      · obtain ⟨hlt, hkmin⟩ := get_argminIdx key shards hne
        obtain ⟨s0, hs0, hs0e⟩ := List.countP_pos_iff.mp (Nat.pos_of_ne_zero hemp)
        have hs0nil : s0.files = [] := by simpa using hs0e
        have hmin0 : minKey key shards = 0 := by
          have h1 := minKey_le key shards s0 hs0
          have h2 : key s0 = 0 := (hinv s0 hs0).mp hs0nil
          omega
        have hanil : (shards.get ⟨argminIdx key shards, hlt⟩).files = [] := by
          refine (hinv _ (List.get_mem shards (argminIdx key shards) hlt)).mpr ?_
          rw [hkmin, hmin0]
        rw [greedyAssign]
        refine ih (modifyIdx (fun s => pushFile s f) (argminIdx key shards) shards)
          (fun g hg => hw g (List.mem_cons_of_mem f hg)) ?_ ?_
        · intro s hs
          rcases mem_modifyIdx _ _ shards s hs with h' | ⟨a, _, rfl⟩
          · exact hinv s h'
          · constructor
            · intro hcon
              simp [pushFile] at hcon
            · intro hcon
              rw [hkw] at hcon
              have := hw f (List.mem_cons_self f fs)
              omega
        · have hstep := countP_modifyIdx (fun s => decide (s.files = []))
            (fun s => pushFile s f) (argminIdx key shards) shards hlt
            (by simpa using hanil) (by simp [pushFile])
          have hle2 : List.countP (fun s => decide (s.files = [])) shards ≤ fs.length + 1 := by
            simpa [countEmpty] using hcount
          unfold countEmpty
          omega

theorem balancedSharding_fill (files : List TestFile) (k : Nat)
    (_hk : 0 < k) (hkn : k ≤ files.length)
    (hpos : ∀ f ∈ files, 0 < f.size) :
    ∀ s ∈ balancedSharding files k, s.files ≠ [] := by
  rw [balancedSharding]
  refine greedyAssign_fill (fun s => s.totalSize) (fun f => f.size) (fun s f => rfl) _ _
    ?_ ?_ ?_
  · intro f hf
    exact hpos f ((sortByKeyDesc_perm _ files).mem_iff.mp hf)
  · intro s hs
    rcases List.mem_map.mp hs with ⟨i, _, rfl⟩
    simp
  · have hlen : (sortByKeyDesc (fun f => f.size) files).length = files.length :=
      (sortByKeyDesc_perm _ files).length_eq
    have hce : countEmpty (emptyShards k) = k := by
      have : ∀ s ∈ emptyShards k, (fun s => decide (s.files = [])) s = true := by
        intro s hs
        rcases List.mem_map.mp hs with ⟨i, _, rfl⟩
        simp
      rw [countEmpty, List.countP_eq_length.mpr this, emptyShards_length]
    rw [hce, hlen]
    exact hkn

theorem durationBasedSharding_fill (files : List TestFile) (k : Nat)
    (hk : 0 < k) (hkn : k ≤ files.length)
    (hpos : if files.any (fun f => f.estimatedDuration.isSome)
            then ∀ f ∈ files, 0 < f.estimatedDuration.getD 0
            else ∀ f ∈ files, 0 < f.size) :
    ∀ s ∈ durationBasedSharding files k, s.files ≠ [] := by
  rw [durationBasedSharding]
  by_cases hany : files.any (fun f => f.estimatedDuration.isSome)
  · rw [if_pos hany]
    rw [if_pos hany] at hpos
    refine greedyAssign_fill (fun s => s.estimatedDuration)
      (fun f => f.estimatedDuration.getD 0) (fun s f => rfl) _ _ ?_ ?_ ?_
    · intro f hf
      exact hpos f ((sortByKeyDesc_perm _ files).mem_iff.mp hf)
    · intro s hs
      rcases List.mem_map.mp hs with ⟨i, _, rfl⟩
      simp
    · have hlen : (sortByKeyDesc (fun f => f.estimatedDuration.getD 0) files).length
          = files.length := (sortByKeyDesc_perm _ files).length_eq
      have hce : countEmpty (emptyShards k) = k := by
        have : ∀ s ∈ emptyShards k, (fun s => decide (s.files = [])) s = true := by
          intro s hs
          rcases List.mem_map.mp hs with ⟨i, _, rfl⟩
          simp
        rw [countEmpty, List.countP_eq_length.mpr this, emptyShards_length]
      rw [hce, hlen]
      exact hkn
  · rw [if_neg hany]
    rw [if_neg hany] at hpos
    exact balancedSharding_fill files k hk hkn hpos

theorem roundRobinGo_fill (k : Nat) (hk : 0 < k) :
    ∀ (fs : List TestFile) (shards : List TestShard) (i : Nat),
    shards.length = k →
    (∀ j, j < Nat.min i k → ∀ s, shards[j]? = some s → s.files ≠ []) →
    ∀ j, j < Nat.min (i + fs.length) k →
    ∀ s, (roundRobinGo k shards i fs)[j]? = some s → s.files ≠ [] := by
  intro fs
  induction fs with
  | nil =>
    intro shards i hlen hpre j hj s hs
    exact hpre j (by simpa using hj) s hs
  | cons f fs ih =>
    intro shards i hlen hpre j hj s hs
    have hlen' : (modifyIdx (fun s => pushFile s f) (i % k) shards).length = k := by
      rw [modifyIdx_length]; exact hlen
    refine ih (modifyIdx (fun s => pushFile s f) (i % k) shards) (i + 1) hlen' ?_ j
      (by simp at hj ⊢; omega) s hs
    intro j' hj' s' hs'
    by_cases hjeq : j' = i % k
    · subst hjeq
      rw [modifyIdx_getElem?_self _ _ _ (by rw [hlen]; exact Nat.mod_lt _ hk)] at hs'
      rcases Option.map_eq_some'.mp hs' with ⟨a, _, rfl⟩
      simp [pushFile]
    · rw [modifyIdx_getElem?_ne _ _ _ _ hjeq] at hs'
      refine hpre j' ?_ s' hs'
      have himod : i % k ≤ i := Nat.mod_le i k
      have : i % k < k := Nat.mod_lt _ hk
      rcases Nat.lt_or_ge i k with hik | hik
      · rw [Nat.mod_eq_of_lt hik] at hjeq
        simp at hj' ⊢
        omega
      · simp at hj' ⊢
        omega

theorem roundRobinSharding_fill (files : List TestFile) (k : Nat)
    (hk : 0 < k) (hkn : k ≤ files.length) :
    ∀ s ∈ roundRobinSharding files k, s.files ≠ [] := by
  intro s hs
  obtain ⟨j, hj⟩ := List.mem_iff_getElem?.mp hs
  have hjlt : j < k := by
    have h1 : j < (roundRobinSharding files k).length := by
      exact (List.getElem?_eq_some.mp hj).1
    rwa [roundRobinSharding_length] at h1
  refine roundRobinGo_fill k hk files (emptyShards k) 0 (emptyShards_length k) ?_ j ?_ s hj
  · intro j' hj' s' _
    simp at hj'
  · exact Nat.lt_min.mpr ⟨by omega, hjlt⟩

/-- Per-strategy positivity requirement on the greedy keys: round-robin needs
nothing; size-balanced needs positive sizes; duration-based needs positive
duration estimates when any estimate is present (a missing estimate counts as
0), and positive sizes otherwise (when it falls back to size-balanced). -/
def positiveKeys : Strategy → List TestFile → Prop
  | .roundRobin, _ => True
  | .balanced, files => ∀ f ∈ files, 0 < f.size
  | .durationBased, files =>
      if files.any (fun f => f.estimatedDuration.isSome)
      then ∀ f ∈ files, 0 < f.estimatedDuration.getD 0
      else ∀ f ∈ files, 0 < f.size

/-- Two zero-size, estimate-free test files (e.g. two empty spec files). -/
def zeroSizeFiles : List TestFile :=
  [{ path := "a", relativePath := "a", framework := "playwright", size := 0,
     estimatedDuration := none },
   { path := "b", relativePath := "b", framework := "playwright", size := 0,
     estimatedDuration := none }]

/-- C7 counterexample: the claim fails as stated — for two files of size 0
under the size-balanced strategy with K = 2, the greedy loop puts both files
into shard 0 (ties on `totalSize` always resolve to the first minimal shard)
and shard 1 comes back empty. -/
theorem createShards_empty_shard_counterexample :
    ∃ r, createShards zeroSizeFiles 2 .balanced = .ok r ∧
      ∃ s ∈ r.shards, s.files = [] := by
  have hb : balancedSharding zeroSizeFiles 2 =
      [{ id := 0, files := zeroSizeFiles, estimatedDuration := 0, totalSize := 0 },
       { id := 1, files := [], estimatedDuration := 0, totalSize := 0 }] := by decide
  refine ⟨_, createShards_ok zeroSizeFiles 2 .balanced (by decide) (by omega), ?_⟩
  show ∃ s ∈ balancedSharding zeroSizeFiles (Nat.min 2 zeroSizeFiles.length), s.files = []
  have hm : Nat.min 2 zeroSizeFiles.length = 2 := by decide
  rw [hm, hb]
  exact ⟨{ id := 1, files := [], estimatedDuration := 0, totalSize := 0 }, by simp, rfl⟩

/-- C7 amended: for every non-empty file list and K ≥ 1, `createShards`
returns exactly `min K fileCount` shards; no shard is empty under round-robin
unconditionally, and under the size-balanced / duration-based strategies
whenever the respective greedy keys (file sizes, resp. duration estimates)
are strictly positive. (The unconditional claim fails: zero-size or
zero-duration files can leave a shard empty, see the counterexample.) -/
theorem createShards_no_empty_shards (files : List TestFile) (K : Nat) (strat : Strategy)
    (hne : files ≠ []) (hK : 1 ≤ K) (hpos : positiveKeys strat files) :
    ∃ r, createShards files K strat = .ok r ∧
      r.totalShards = Nat.min K files.length ∧
      r.shards.length = Nat.min K files.length ∧
      ∀ s ∈ r.shards, s.files ≠ [] := by
  have hk : 0 < Nat.min K files.length :=
    Nat.lt_min.mpr ⟨by omega, List.length_pos.mpr hne⟩
  have hkn : Nat.min K files.length ≤ files.length := Nat.min_le_right _ _
  refine ⟨_, createShards_ok files K strat hne hK, rfl, ?_, ?_⟩
  · cases strat
    · exact roundRobinSharding_length files _
    · exact balancedSharding_length files _
    · exact durationBasedSharding_length files _
  · cases strat
    · exact roundRobinSharding_fill files _ hk hkn
    · exact balancedSharding_fill files _ hk hkn hpos
    · exact durationBasedSharding_fill files _ hk hkn hpos

/-- Two positive-size, estimate-free test files for the C7 witness. -/
def posSizeFiles : List TestFile :=
  [{ path := "a", relativePath := "a", framework := "playwright", size := 4,
     estimatedDuration := none },
   { path := "b", relativePath := "b", framework := "playwright", size := 1,
     estimatedDuration := none }]

/-- Witness for the amended C7 at a concrete input: K = 5 exceeds the 2
positive-size files, so exactly 2 non-empty shards come back. -/
theorem createShards_no_empty_shards_witness :
    ∃ r, createShards posSizeFiles 5 .balanced = .ok r ∧
      r.totalShards = Nat.min 5 posSizeFiles.length ∧
      r.shards.length = Nat.min 5 posSizeFiles.length ∧
      ∀ s ∈ r.shards, s.files ≠ [] :=
  createShards_no_empty_shards posSizeFiles 5 .balanced (by decide) (by omega)
    (by decide : ∀ f ∈ posSizeFiles, 0 < f.size)

/-! ### The ECS run orchestrator (`ECSBackend.run`), as a trace model

`ECSBackend.run` is a straight-line async function issuing calls to S3 (the
DurableStore) and ECS (the ComputeBackend). We model it as a function from an
abstract `World` — fixing the outcome of every external call — to the ordered
list of calls issued (the trace) plus the returned value or thrown error.
Shards are identified by their index `0..k-1`; task handles coincide with
shard indices since `createTasks` launches one task per shard in order. -/

/-- `TestCase` from `src/cli/src/types` (part_020 lines 379-386). -/
structure TestCase where
  name : String
  file : String
  status : String
  duration : Nat
  error : Option String := none
deriving DecidableEq, Repr

/-- `TestResult` from `src/cli/src/types` (part_020 lines 371-377): one
shard's result file (`shard-<id>.json`). -/
structure TestResult where
  shard : Nat
  passed : Nat
  failed : Nat
  skipped : Nat
  duration : Nat
  tests : List TestCase := []
deriving DecidableEq, Repr

/-- One external call issued by `ECSBackend.run` (in source order:
`ensureBucketExists`, `uploadDirectory`, `uploadJSON` of `shards.json`,
`RunTaskCommand` per shard, `uploadJSON` of `tasks.json`,
`DescribeTasksCommand`, `StopTaskCommand`, `downloadJSON` of a shard
result). -/
inductive Ev where
  | ensureBucket
  | uploadTestCode
  | uploadShards
  | runTask (shard : Nat)
  | putTasksManifest
  | describeTasks
  | stopTask (task : Nat)
  | getResult (shard : Nat)
deriving DecidableEq, Repr

/-- The errors `ECSBackend.run` can propagate (by source throw site). -/
inductive RunErr where
  | bucket
  | uploadCode
  | uploadShards
  | launch (shard : Nat)
  | timeout
  | incompleteResults (got expected : Nat)
deriving DecidableEq, Repr

/-- Outcomes of every external call, fixed up front: which store/backend
calls succeed, the `lastStatus` each task reports at each poll tick, and
which shard results are retrievable (after `withRetry`'s bounded attempts). -/
structure World where
  bucketOk : Bool
  codeOk : Bool
  shardsOk : Bool
  launchOk : Nat → Bool
  pollStates : Nat → Nat → String
  resultOf : Nat → Option TestResult

/-- Sequencing of two trace-producing steps: the second runs only when the
first did not throw; traces concatenate (the source's sequential `await`s
inside `run`'s `try` block, whose `catch` rethrows). -/
def seqE {α β : Type} (a : List Ev × Except RunErr α)
    (f : α → List Ev × Except RunErr β) : List Ev × Except RunErr β :=
  match a with
  | (tr, .error e) => (tr, .error e)
  | (tr, .ok x) =>
    let fb := f x
    (tr ++ fb.1, fb.2)

/-- Step 0 of `run`: `ensureBucketExists` (throws on failure). -/
def ensureBucketM (w : World) : List Ev × Except RunErr Unit :=
  ([.ensureBucket], if w.bucketOk then .ok () else .error .bucket)

/-- Step 1: `uploadTestCode` (throws on failure). -/
def uploadTestCodeM (w : World) : List Ev × Except RunErr Unit :=
  ([.uploadTestCode], if w.codeOk then .ok () else .error .uploadCode)

/-- Step 2: `uploadShards` — the RunManifest (`shards.json`) write
(`ECSBackend.uploadShards`, ecs.ts lines 190-219; throws on failure). -/
def uploadShardsM (w : World) : List Ev × Except RunErr Unit :=
  ([.uploadShards], if w.shardsOk then .ok () else .error .uploadShards)

/-- The `for` loop of `createTasks` (ecs.ts lines 222-284): launch one task
per shard in order; a failed launch throws immediately (no cleanup of
already-launched tasks). -/
def launchTasksGo (w : World) : Nat → Nat → List Ev × Except RunErr Unit
  | _, 0 => ([], .ok ())
  | i, rem + 1 =>
    if w.launchOk i then
      let rest := launchTasksGo w (i + 1) rem
      (.runTask i :: rest.1, rest.2)
    else ([.runTask i], .error (.launch i))

/-- `ECSBackend.createTasks`: the launch loop followed by the best-effort
`tasks.json` upload (its own failure is swallowed, so it never throws). -/
def createTasksM (w : World) (k : Nat) : List Ev × Except RunErr Unit :=
  seqE (launchTasksGo w 0 k) (fun _ => ([.putTasksManifest], .ok ()))

/-- Number of tasks reporting `lastStatus === 'STOPPED'` at poll tick `t`
(`tasks.filter(t => t.lastStatus === 'STOPPED').length`). -/
def stoppedCount (w : World) (t n : Nat) : Nat :=
  (List.range n).countP (fun i => w.pollStates t i == "STOPPED")

/-- The polling loop of `ECSBackend.waitForCompletion` (ecs.ts lines
314-397). `rem` is the number of poll iterations left before the wall-clock
deadline (`timeout = config.execution.timeout * 60 * 1000 * 1.5`) elapses:
when it reaches 0, the source stops EVERY task handle in `taskArns`
(swallowing per-stop errors) and throws the timeout error; otherwise it
describes the tasks and returns once all are stopped. -/
def waitLoopM (w : World) (n : Nat) : Nat → Nat → List Ev × Except RunErr Unit
  | 0, _ => ((List.range n).map (fun i => .stopTask i), .error .timeout)
  | rem + 1, t =>
    if stoppedCount w t n = n then ([.describeTasks], .ok ())
    else
      let rest := waitLoopM w n rem (t + 1)
      (.describeTasks :: rest.1, rest.2)

/-- The per-shard download loop of `ECSBackend.aggregateResults` (ecs.ts
lines 399-455): each shard's result is fetched (with bounded retry, modelled
as one `getResult` call whose outcome `w.resultOf` already reflects the
retries); a still-missing shard goes to `failedShards` and the loop
continues — download failures never throw. -/
def aggregateGo (w : World) : Nat → Nat → List Ev × List TestResult × List Nat
  | _, 0 => ([], [], [])
  | i, rem + 1 =>
    let rest := aggregateGo w (i + 1) rem
    match w.resultOf i with
    | some r => (.getResult i :: rest.1, r :: rest.2.1, rest.2.2)
    | none => (.getResult i :: rest.1, rest.2.1, i :: rest.2.2)

/-- `ECSBackend.aggregateResults`: returns the collected results and the
missing-shard list; it returns normally even when shards are missing. -/
def aggregateResultsM (w : World) (k : Nat) : List Ev × List TestResult × List Nat :=
  aggregateGo w 0 k

/-- Steps 5-6 of `run`: aggregate, then the
`results.length < shards.length` check that throws
`Failed to collect all shard results: got X/Y`; on success the model returns
the collected `TestResult`s (the payload of the `RunSummary`). -/
def finishRunM (w : World) (k : Nat) : List Ev × Except RunErr (List TestResult) :=
  let agg := aggregateResultsM w k
  if agg.2.1.length < k then (agg.1, .error (.incompleteResults agg.2.1.length k))
  else (agg.1, .ok agg.2.1)

/-- `ECSBackend.run` (ecs.ts lines 60-132) over `k` shards with
`deadlineTicks` poll iterations available before the run-level deadline:
steps 0-6 in sequence. Any thrown error propagates (`run`'s `catch` logs and
rethrows), so a failing step skips everything after it. -/
def runModel (w : World) (k : Nat) (deadlineTicks : Nat) :
    List Ev × Except RunErr (List TestResult) :=
  seqE (ensureBucketM w) (fun _ =>
  seqE (uploadTestCodeM w) (fun _ =>
  seqE (uploadShardsM w) (fun _ =>
  seqE (createTasksM w k) (fun _ =>
  seqE (waitLoopM w k deadlineTicks 0) (fun _ =>
    finishRunM w k)))))

/-! ### C2: the RunManifest write precedes every task launch -/

/-- C2: in every run — whatever the world makes of each call — any task
launch (`RunTaskCommand`) in the trace is strictly preceded by the
`shards.json` (RunManifest) write, which moreover succeeded: `run` awaits
`uploadShards` (and throws on its failure) before `createTasks` issues the
first launch. -/
theorem manifest_before_launch (w : World) (k d j s : Nat)
    (hj : (runModel w k d).1[j]? = some (.runTask s)) :
    w.shardsOk = true ∧
    ∃ i, i < j ∧ (runModel w k d).1[i]? = some .uploadShards := by
  cases hb : w.bucketOk <;> cases hc : w.codeOk <;> cases hs : w.shardsOk <;>
      rcases j with _ | _ | _ | j <;>
      simp [runModel, seqE, ensureBucketM, uploadTestCodeM, uploadShardsM, hb, hc, hs] at hj ⊢ <;>
      exact ⟨2, by omega, by simp⟩

theorem launchTasksGo_ok (w : World) :
    ∀ (rem i0 : Nat), (∀ i, i0 ≤ i → i < i0 + rem → w.launchOk i = true) →
    launchTasksGo w i0 rem = ((List.range' i0 rem).map (fun i => .runTask i), .ok ()) := by
  intro rem
  induction rem with
  | zero => intro i0 _; rfl
  | succ n ih =>
    intro i0 h
    rw [launchTasksGo, if_pos (h i0 (Nat.le_refl _) (by omega))]
    rw [ih (i0 + 1) (fun i h1 h2 => h i (by omega) (by omega))]
    simp [List.range'_succ]

theorem waitLoopM_timeout (w : World) (n : Nat) :
    ∀ (rem t0 : Nat), (∀ t, t0 ≤ t → t < t0 + rem → stoppedCount w t n ≠ n) →
    waitLoopM w n rem t0 =
      (List.replicate rem .describeTasks ++ (List.range n).map (fun i => .stopTask i),
       .error .timeout) := by
  intro rem
  induction rem with
  | zero => intro t0 _; rfl
  | succ m ih =>
    intro t0 h
    rw [waitLoopM, if_neg (h t0 (Nat.le_refl _) (by omega))]
    rw [ih (t0 + 1) (fun t h1 h2 => h t (by omega) (by omega))]
    simp [List.replicate_succ]

/-- A world in which every call succeeds, every task stops at the first poll
and every shard result is present. -/
def wOk : World :=
  { bucketOk := true
    codeOk := true
    shardsOk := true
    launchOk := fun _ => true
    pollStates := fun _ _ => "STOPPED"
    resultOf := fun i =>
      some { shard := i, passed := 1, failed := 0, skipped := 0, duration := 5 } }

/-- Witness for C2: in the all-succeeding world with one shard, the launch of
shard 0 sits at trace index 3 and the manifest write at index 2 before it. -/
theorem manifest_before_launch_witness :
    (runModel wOk 1 1).1[3]? = some (.runTask 0) ∧
    (wOk.shardsOk = true ∧
     ∃ i, i < 3 ∧ (runModel wOk 1 1).1[i]? = some .uploadShards) :=
  ⟨rfl, manifest_before_launch wOk 1 1 3 0 rfl⟩

/-! ### C3: behaviour at the run-level deadline -/

/-- C3 amended: when the run-level deadline elapses while the tasks have
never all reached `STOPPED`, the run fails with the Timeout error, issues
exactly one stop call for EVERY task handle — whether or not it was still
active — and never reaches aggregation: no result fetch appears in the
trace. -/
theorem timeout_stops_every_task (w : World) (k d : Nat)
    (hb : w.bucketOk = true) (hc : w.codeOk = true) (hs : w.shardsOk = true)
    (hl : ∀ i, i < k → w.launchOk i = true)
    (hnd : ∀ t, t < d → stoppedCount w t k ≠ k) :
    ∃ tr, runModel w k d = (tr, .error .timeout) ∧
      (∀ i, i < k → tr.count (.stopTask i) = 1) ∧
      (∀ i, k ≤ i → tr.count (.stopTask i) = 0) ∧
      (∀ s, Ev.getResult s ∉ tr) := by
  have hlaunch := launchTasksGo_ok w k 0 (fun i h1 h2 => hl i (by omega))
  have hwait := waitLoopM_timeout w k d 0 (fun t h1 h2 => hnd t (by omega))
  have hinj : Function.Injective (fun i => Ev.stopTask i) := by
    intro a b hab
    simpa using hab
  refine ⟨Ev.ensureBucket :: Ev.uploadTestCode :: Ev.uploadShards ::
      ((List.range k).map (fun i => Ev.runTask i) ++
        Ev.putTasksManifest ::
          (List.replicate d Ev.describeTasks ++
            (List.range k).map (fun i => Ev.stopTask i))), ?_, ?_, ?_, ?_⟩
  case _ =>
    simp [runModel, seqE, ensureBucketM, uploadTestCodeM, uploadShardsM, createTasksM,
      hb, hc, hs, hlaunch, hwait, ← List.range_eq_range']
  case _ =>
    intro i hi
    have h1 : ((List.range k).map (fun i => Ev.runTask i)).count (Ev.stopTask i) = 0 :=
      List.count_eq_zero.mpr (by simp)
    have h2 : (List.replicate d Ev.describeTasks).count (Ev.stopTask i) = 0 :=
      List.count_eq_zero.mpr (by simp)
    have h3 : ((List.range k).map (fun i => Ev.stopTask i)).count (Ev.stopTask i) = 1 := by
      rw [show (Ev.stopTask i) = (fun i => Ev.stopTask i) i from rfl,
        List.count_map_of_injective _ _ hinj]
      exact List.count_eq_one_of_mem (List.nodup_range k) (List.mem_range.mpr hi)
    simp [List.count_cons, List.count_append, h1, h2, h3]
  case _ =>
    intro i hi
    have h1 : ((List.range k).map (fun i => Ev.runTask i)).count (Ev.stopTask i) = 0 :=
      List.count_eq_zero.mpr (by simp)
    have h2 : (List.replicate d Ev.describeTasks).count (Ev.stopTask i) = 0 :=
      List.count_eq_zero.mpr (by simp)
    have h3 : ((List.range k).map (fun i => Ev.stopTask i)).count (Ev.stopTask i) = 0 := by
      refine List.count_eq_zero.mpr ?_
      simp only [List.mem_map, List.mem_range]
      rintro ⟨j, hj, hj2⟩
      have : j = i := by simpa using hj2
      omega
    simp [List.count_cons, List.count_append, h1, h2, h3]
  case _ =>
    intro s
    simp

/-- A world whose second task is already `STOPPED` at the only poll before
the deadline while the first is still `RUNNING`, and which holds no results. -/
def wLate : World :=
  { bucketOk := true
    codeOk := true
    shardsOk := true
    launchOk := fun _ => true
    pollStates := fun _ i => if i = 0 then "RUNNING" else "STOPPED"
    resultOf := fun _ => none }

/-- C3 counterexample: at the deadline with task 1 already observed
`STOPPED` (only task 0 still running), the source still issues a stop call
for task 1 — the claim's "none for already-stopped tasks" is false — and it
throws before aggregation, so no `ShardResult` fetch happens — the claim's
"still proceeds to aggregate" is false as well. -/
theorem timeout_counterexample :
    wLate.pollStates 0 1 = "STOPPED" ∧
    runModel wLate 2 1 =
      ([.ensureBucket, .uploadTestCode, .uploadShards, .runTask 0, .runTask 1,
        .putTasksManifest, .describeTasks, .stopTask 0, .stopTask 1],
       .error .timeout) ∧
    Ev.stopTask 1 ∈ (runModel wLate 2 1).1 ∧
    ∀ s, Ev.getResult s ∉ (runModel wLate 2 1).1 := by
  have htr : runModel wLate 2 1 =
      ([.ensureBucket, .uploadTestCode, .uploadShards, .runTask 0, .runTask 1,
        .putTasksManifest, .describeTasks, .stopTask 0, .stopTask 1],
       .error .timeout) := by rfl
  refine ⟨rfl, htr, ?_, ?_⟩
  · rw [htr]
    simp
  · intro s
    rw [htr]
    simp

/-- Witness for the amended C3 at a concrete input: two tasks, one poll tick,
task 0 never stops. -/
theorem timeout_stops_every_task_witness :
    ∃ tr, runModel wLate 2 1 = (tr, .error .timeout) ∧
      (∀ i, i < 2 → tr.count (.stopTask i) = 1) ∧
      (∀ i, 2 ≤ i → tr.count (.stopTask i) = 0) ∧
      (∀ s, Ev.getResult s ∉ tr) :=
  timeout_stops_every_task wLate 2 1 rfl rfl rfl (fun _ _ => rfl)
    (fun t ht => by
      have ht0 : t = 0 := by omega
      subst ht0
      decide)

/-! ### C4: a shard with no ShardResult after retries -/

theorem aggregateGo_spec (w : World) :
    ∀ (rem i0 : Nat),
    aggregateGo w i0 rem =
      ((List.range' i0 rem).map (fun i => .getResult i),
       (List.range' i0 rem).filterMap w.resultOf,
       (List.range' i0 rem).filter (fun i => (w.resultOf i).isNone)) := by
  intro rem
  induction rem with
  | zero => intro i0; rfl
  | succ n ih =>
    intro i0
    rw [aggregateGo, ih (i0 + 1)]
    cases hres : w.resultOf i0 <;>
      simp [List.range'_succ, List.filterMap_cons, hres]

theorem aggregateResultsM_spec (w : World) (k : Nat) :
    aggregateResultsM w k =
      ((List.range k).map (fun i => .getResult i),
       (List.range k).filterMap w.resultOf,
       (List.range k).filter (fun i => (w.resultOf i).isNone)) := by
  rw [aggregateResultsM, aggregateGo_spec, ← List.range_eq_range']

theorem length_filterMap_all_some {α β : Type} (f : α → Option β) :
    ∀ (l : List α), (∀ a ∈ l, (f a).isSome = true) →
    (l.filterMap f).length = l.length := by
  intro l
  induction l with
  | nil => intro _; rfl
  | cons a rest ih =>
    intro h
    rcases Option.isSome_iff_exists.mp (h a (List.mem_cons_self a rest)) with ⟨b, hb⟩
    rw [List.filterMap_cons]
    rw [hb]
    simp only [List.length_cons]
    rw [ih (fun x hx => h x (List.mem_cons_of_mem a hx))]

theorem filter_isNone_unique (w : World) :
    ∀ (k m : Nat), m < k → w.resultOf m = none →
    (∀ i, i < k → i ≠ m → (w.resultOf i).isSome = true) →
    (List.range k).filter (fun i => (w.resultOf i).isNone) = [m] := by
  intro k
  induction k with
  | zero => intro m hm; omega
  | succ n ih =>
    intro m hm hmiss hothers
    rw [List.range_succ, List.filter_append]
    by_cases hmn : m = n
    · subst hmn
      have h1 : (List.range m).filter (fun i => (w.resultOf i).isNone) = [] := by
        rw [List.filter_eq_nil_iff]
        intro i hi
        have h2 := hothers i (by simp at hi; omega) (by simp at hi; omega)
        simp [Option.isSome_iff_ne_none] at h2
        simpa using h2
      rw [h1]
      simp [hmiss]
    · have h1 := ih m (by omega) hmiss (fun i h1 h2 => hothers i (by omega) h2)
      rw [h1]
      have h2 : (w.resultOf n).isSome = true := hothers n (by omega) (by omega)
      have h3 : (w.resultOf n).isNone = false := by
        rcases Option.isSome_iff_exists.mp h2 with ⟨b, hb⟩
        simp [hb]
      simp [h3]

theorem length_filterMap_unique_missing (w : World) :
    ∀ (k m : Nat), m < k → w.resultOf m = none →
    (∀ i, i < k → i ≠ m → (w.resultOf i).isSome = true) →
    ((List.range k).filterMap w.resultOf).length = k - 1 := by
  intro k
  induction k with
  | zero => intro m hm; omega
  | succ n ih =>
    intro m hm hmiss hothers
    rw [List.range_succ, List.filterMap_append, List.length_append]
    by_cases hmn : m = n
    · subst hmn
      have h1 : ((List.range m).filterMap w.resultOf).length = m := by
        have h2 := length_filterMap_all_some w.resultOf (List.range m)
          (fun i hi => hothers i (by simp at hi; omega) (by simp at hi; omega))
        simpa using h2
      rw [h1]
      simp [List.filterMap_cons, hmiss]
    · have h1 := ih m (by omega) hmiss (fun i h1 h2 => hothers i (by omega) h2)
      rw [h1]
      rcases Option.isSome_iff_exists.mp (hothers n (by omega) (by omega)) with ⟨b, hb⟩
      simp [List.filterMap_cons, hb]
      omega

/-- C4 amended: if after the bounded retry phase exactly one shard `m` of `k`
has no stored ShardResult, `aggregateResults` does NOT raise: it returns the
other `k-1` results (each the stored result of some shard other than `m`)
and records `m` in its `failedShards` list (surfaced only as a warning log);
`run` then throws the `results.length < shards.length` error carrying the
counts `k-1` of `k` — not the missing shard id — so the partial results are
not returned by `run`. -/
theorem missing_shard_aggregation (w : World) (k d m : Nat)
    (hb : w.bucketOk = true) (hc : w.codeOk = true) (hs : w.shardsOk = true)
    (hl : ∀ i, i < k → w.launchOk i = true)
    (hd : 0 < d) (hstop : stoppedCount w 0 k = k)
    (hm : m < k) (hmiss : w.resultOf m = none)
    (hothers : ∀ i, i < k → i ≠ m → (w.resultOf i).isSome = true) :
    (aggregateResultsM w k).2.1 = (List.range k).filterMap w.resultOf ∧
    (aggregateResultsM w k).2.1.length = k - 1 ∧
    (aggregateResultsM w k).2.2 = [m] ∧
    (∀ r ∈ (aggregateResultsM w k).2.1, ∃ i, i < k ∧ i ≠ m ∧ w.resultOf i = some r) ∧
    (runModel w k d).2 = .error (.incompleteResults (k - 1) k) := by
  have hagg := aggregateResultsM_spec w k
  have hlen := length_filterMap_unique_missing w k m hm hmiss hothers
  refine ⟨by rw [hagg], by rw [hagg]; exact hlen,
    by rw [hagg]; exact filter_isNone_unique w k m hm hmiss hothers, ?_, ?_⟩
  · intro r hr
    rw [hagg] at hr
    rcases List.mem_filterMap.mp hr with ⟨i, hi, hri⟩
    refine ⟨i, List.mem_range.mp hi, ?_, hri⟩
    intro hcon
    subst hcon
    rw [hmiss] at hri
    cases hri
  · have hlaunch := launchTasksGo_ok w k 0 (fun i h1 h2 => hl i (by omega))
    obtain ⟨d', rfl⟩ : ∃ d', d = d' + 1 := ⟨d - 1, by omega⟩
    have hwait : waitLoopM w k (d' + 1) 0 = ([.describeTasks], .ok ()) := by
      rw [waitLoopM, if_pos hstop]
    have hfin : (finishRunM w k).2 = .error (.incompleteResults (k - 1) k) := by
      rw [finishRunM]
      have hk1 : (aggregateResultsM w k).2.1.length = k - 1 := by
        rw [hagg]
        exact hlen
      rw [if_pos (by omega)]
      simp [hk1]
    simp [runModel, seqE, ensureBucketM, uploadTestCodeM, uploadShardsM, createTasksM,
      hb, hc, hs, hlaunch, hwait, hfin]

/-- A world where every call succeeds, all tasks stop at the first poll, and
only shard 0 of 2 has a stored result. -/
def wMiss : World :=
  { bucketOk := true
    codeOk := true
    shardsOk := true
    launchOk := fun _ => true
    pollStates := fun _ _ => "STOPPED"
    resultOf := fun i =>
      if i = 0 then some { shard := 0, passed := 3, failed := 0, skipped := 0, duration := 7 }
      else none }

/-- C4 counterexample: with shard 1 of 2 missing, aggregation does not fail
at all — `aggregateResults` returns normally with the one other result and
`failedShards = [1]` — and the error `run` then throws is the
got-X-of-Y counts error (whose payload carries no shard id), while `run`
returns no results; so "aggregation fails with an AggregationError that
names the missing shard, while the other K-1 results are still returned to
the caller" is false as stated. -/
theorem missing_shard_counterexample :
    (aggregateResultsM wMiss 2).2.1 =
      [{ shard := 0, passed := 3, failed := 0, skipped := 0, duration := 7 }] ∧
    (aggregateResultsM wMiss 2).2.2 = [1] ∧
    (runModel wMiss 2 1).2 = .error (.incompleteResults 1 2) ∧
    ∀ results, (runModel wMiss 2 1).2 ≠ .ok results := by
  have herr : (runModel wMiss 2 1).2 = .error (.incompleteResults 1 2) := by rfl
  refine ⟨rfl, rfl, herr, ?_⟩
  intro results h
  rw [herr] at h
  cases h

/-- Witness for the amended C4 at a concrete input. -/
theorem missing_shard_aggregation_witness :
    (aggregateResultsM wMiss 2).2.1 = (List.range 2).filterMap wMiss.resultOf ∧
    (aggregateResultsM wMiss 2).2.1.length = 2 - 1 ∧
    (aggregateResultsM wMiss 2).2.2 = [1] ∧
    (∀ r ∈ (aggregateResultsM wMiss 2).2.1,
      ∃ i, i < 2 ∧ i ≠ 1 ∧ wMiss.resultOf i = some r) ∧
    (runModel wMiss 2 1).2 = .error (.incompleteResults (2 - 1) 2) :=
  missing_shard_aggregation wMiss 2 1 1 rfl rfl rfl (fun _ _ => rfl)
    (by omega) (by decide) (by omega) (by decide)
    (fun i h1 h2 => by
      have hi0 : i = 0 := by omega
      subst hi0
      decide)

/-! ### C5: the status reconciler — a stored ShardResult wins over live state

Model of the merge step of `gatherStatus` (status.ts lines 168-198) and of
`mapEcsStatus` (status.ts lines 402-418). The per-shard live ECS states are
a lookup function standing for the `ecsTaskStates` map keyed by shard id. -/

/-- A `ShardState` (status.ts line 40). -/
inductive ShardState where
  | pending
  | running
  | stopped
  | completed
  | failed
  | unknown
deriving DecidableEq, Repr

/-- One entry of the `ecsTaskStates` map: `{ status, exitCode }`. -/
structure EcsLiveState where
  status : String
  exitCode : Option Int := none
deriving DecidableEq, Repr

/-- `ShardStatusInfo` (status.ts lines 42-48). -/
structure ShardStatusInfo where
  shardId : Nat
  state : ShardState
  result : Option TestResult := none
  ecsStatus : Option String := none
  exitCode : Option Int := none
deriving DecidableEq, Repr

/-- `mapEcsStatus` (status.ts lines 402-418). -/
def mapEcsStatus : String → ShardState
  | "PROVISIONING" | "PENDING" => .pending
  | "ACTIVATING" | "RUNNING" => .running
  | "DEACTIVATING" | "STOPPING" | "DEPROVISIONING" | "STOPPED" => .stopped
  | _ => .unknown

/-- Step 6 of `gatherStatus`: `shards.map(shard => ...)` — a present S3
result is the source of truth (Failed on any failed tests, else Completed);
otherwise the mapped live ECS state; otherwise Unknown. -/
def buildShardStatuses (shards : List TestShard) (results : List TestResult)
    (ecs : Nat → Option EcsLiveState) : List ShardStatusInfo :=
  shards.map (fun shard =>
    match results.find? (fun r => r.shard == shard.id) with
    | some result =>
      { shardId := shard.id
        state := if result.failed > 0 then .failed else .completed
        result := some result
        ecsStatus := (ecs shard.id).map (fun st => st.status)
        exitCode := (ecs shard.id).bind (fun st => st.exitCode) }
    | none =>
      match ecs shard.id with
      | some st =>
        { shardId := shard.id
          state := mapEcsStatus st.status
          ecsStatus := some st.status
          exitCode := st.exitCode }
      | none => { shardId := shard.id, state := .unknown })

/-- C5: for every shard with a stored `ShardResult`, the reconciler reports
the store-derived terminal state — Failed iff the result records failed
tests, else Completed — for EVERY live-state function `ecs` (in particular
one reporting `"RUNNING"`): the live state does not influence the `state`
field. Only a shard with no stored result takes its state from the mapped
live backend state. -/
theorem statusReconciler_store_wins (shards : List TestShard)
    (results : List TestResult) (ecs : Nat → Option EcsLiveState)
    (i : Nat) (hi : i < shards.length) :
    (∀ r, results.find? (fun t => t.shard == (shards.get ⟨i, hi⟩).id) = some r →
      ∃ e, (buildShardStatuses shards results ecs)[i]? = some e ∧
        e.state = (if 0 < r.failed then ShardState.failed else ShardState.completed)) ∧
    (results.find? (fun t => t.shard == (shards.get ⟨i, hi⟩).id) = none →
      ∀ info, ecs (shards.get ⟨i, hi⟩).id = some info →
      ∃ e, (buildShardStatuses shards results ecs)[i]? = some e ∧
        e.state = mapEcsStatus info.status) := by
  have hmap : (buildShardStatuses shards results ecs)[i]? =
      some (match results.find? (fun r => r.shard == (shards.get ⟨i, hi⟩).id) with
        | some result =>
          ({ shardId := (shards.get ⟨i, hi⟩).id
             state := if result.failed > 0 then .failed else .completed
             result := some result
             ecsStatus := (ecs (shards.get ⟨i, hi⟩).id).map (fun st => st.status)
             exitCode := (ecs (shards.get ⟨i, hi⟩).id).bind (fun st => st.exitCode) }
            : ShardStatusInfo)
        | none =>
          match ecs (shards.get ⟨i, hi⟩).id with
          | some st =>
            { shardId := (shards.get ⟨i, hi⟩).id
              state := mapEcsStatus st.status
              ecsStatus := some st.status
              exitCode := st.exitCode }
          | none => { shardId := (shards.get ⟨i, hi⟩).id, state := .unknown }) := by
    rw [buildShardStatuses, List.getElem?_map, List.getElem?_eq_getElem hi]
    rfl
  constructor
  · intro r hr
    rw [hmap, hr]
    exact ⟨_, rfl, by simp [Nat.pos_iff_ne_zero]⟩
  · intro hnone info hinfo
    rw [hmap, hnone, hinfo]
    exact ⟨_, rfl, rfl⟩

/-- Witness for C5 at a concrete input: one shard with a stored all-passed
result while the backend still reports `"RUNNING"` — the reconciler says
Completed. -/
theorem statusReconciler_store_wins_witness :
    (∀ r, ([{ shard := 0, passed := 5, failed := 0, skipped := 0, duration := 9 }]
        : List TestResult).find?
        (fun t => t.shard ==
          (([{ id := 0, files := [], estimatedDuration := 0, totalSize := 0 }]
            : List TestShard).get ⟨0, by decide⟩).id) = some r →
      ∃ e, (buildShardStatuses
          [{ id := 0, files := [], estimatedDuration := 0, totalSize := 0 }]
          [{ shard := 0, passed := 5, failed := 0, skipped := 0, duration := 9 }]
          (fun _ => some { status := "RUNNING" }))[0]? = some e ∧
        e.state = (if 0 < r.failed then ShardState.failed else ShardState.completed)) ∧
    (([{ shard := 0, passed := 5, failed := 0, skipped := 0, duration := 9 }]
        : List TestResult).find?
        (fun t => t.shard ==
          (([{ id := 0, files := [], estimatedDuration := 0, totalSize := 0 }]
            : List TestShard).get ⟨0, by decide⟩).id) = none →
      ∀ info, (fun (_ : Nat) => some ({ status := "RUNNING" } : EcsLiveState))
          (([{ id := 0, files := [], estimatedDuration := 0, totalSize := 0 }]
            : List TestShard).get ⟨0, by decide⟩).id = some info →
      ∃ e, (buildShardStatuses
          [{ id := 0, files := [], estimatedDuration := 0, totalSize := 0 }]
          [{ shard := 0, passed := 5, failed := 0, skipped := 0, duration := 9 }]
          (fun _ => some { status := "RUNNING" }))[0]? = some e ∧
        e.state = mapEcsStatus info.status) :=
  statusReconciler_store_wins
    [{ id := 0, files := [], estimatedDuration := 0, totalSize := 0 }]
    [{ shard := 0, passed := 5, failed := 0, skipped := 0, duration := 9 }]
    (fun _ => some { status := "RUNNING" }) 0 (by decide)

end Cheaptest
